import Mathlib

/-!
Shallow embedding of the cutting-stock optimization core of the repository
(`optimization.py`): demand aggregation, primary and secondary cut option
generation and filtering, the ILP constraint set and objective built by
`_optimize_2d_with_lengths`, the result extraction, and the first-fit
decreasing track packer.  Lengths (Python floats, metres) are modelled as
rationals, widths (millimetres) and quantities as naturals; Python's
unbounded ints need no overflow treatment.  The external MILP solver is
modelled by its contract: an integer assignment to the decision variables
that satisfies every constraint the code added to the model.
-/

namespace PlanOpt

/-- Length-match tolerance used throughout `_optimize_2d_with_lengths`
(`tolerance_length = 0.01`, metres). -/
def tolerance_length : ℚ := 1 / 100

/-- Width-match tolerance used throughout `_optimize_2d_with_lengths`
(`tolerance_width = 20`, millimetres). -/
def tolerance_width : ℕ := 20

/-- Longitudinal cut price per metre, from `config_and_data.LONG_CUT_PRICE_PER_M`. -/
def LONG_CUT_PRICE_PER_M : ℚ := 460

/-- Flat transverse cut price, from `config_and_data.TRANSVERSE_CUT_PRICE`. -/
def TRANSVERSE_CUT_PRICE : ℚ := 1200

/-- Absolute difference of two natural-number widths, mirroring Python's
`abs(a - b)` on ints. -/
def wdist (a b : ℕ) : ℕ := max a b - min a b

/-- Demand line of the 2D optimizer: length in metres, width in millimetres,
ordered quantity.  Mirrors an `orders_2d` entry of `_optimize_2d_with_lengths`. -/
structure Order2D where
  length : ℚ
  width : ℕ
  qty : ℕ
  deriving DecidableEq

/-- One dict update `demand_2d[key] = demand_2d.get(key, 0) + qty`: sum with an
existing entry whose key is exactly equal, else append a fresh entry (Python
dicts preserve insertion order). -/
def addDemand (m : List ((ℚ × ℕ) × ℕ)) (k : ℚ × ℕ) (q : ℕ) : List ((ℚ × ℕ) × ℕ) :=
  match m with
  | [] => [(k, q)]
  | e :: rest => if e.1 = k then (e.1, e.2 + q) :: rest else e :: addDemand rest k q

/-- Demand aggregation step of `_optimize_2d_with_lengths`: group order lines
by the exact pair `(length, width)`, summing quantities. -/
def demand_2d (orders : List Order2D) : List ((ℚ × ℕ) × ℕ) :=
  orders.foldl (fun m o => addDemand m (o.length, o.width) o.qty) []

/-- Kind tag of a primary cut option (`'solid' | 'direct' | 'indirect'`). -/
inductive PKind
  | solid
  | direct
  | indirect
  deriving DecidableEq

/-- Primary cut option record.  `target_width` and `narrowing_waste` are only
meaningful for `indirect` options; elsewhere the code reads them with
`opt.get('target_width', 0)`, so the default is 0. -/
structure POpt where
  id : ℕ
  length : ℚ
  main : ℕ
  rest : ℕ
  kind : PKind
  target_width : ℕ
  narrowing_waste : ℕ
  deriving DecidableEq

/-- Hard-coded narrowing table `NARROWING_TABLE` of
(source rest width, target width, waste) triples. -/
def NARROWING_TABLE : List (ℕ × ℕ × ℕ) :=
  [(480, 460, 20), (500, 460, 40), (495, 460, 35), (740, 720, 20),
   (690, 660, 30), (890, 860, 30), (495, 480, 15)]

/-- Reverse index `target_to_sources[w]`: triples `(main_w, source_rest, waste)`
for table rows whose target is `w` and whose implied main width
`plate_width - source_rest` lies in `[200, 1000]`.  Natural subtraction makes a
negative Python `main_w` come out as 0, which fails the `200 ≤` guard exactly
as the negative value does. -/
def target_to_sources (pw w : ℕ) : List (ℕ × ℕ × ℕ) :=
  NARROWING_TABLE.filterMap fun t =>
    if t.2.1 = w ∧ 200 ≤ pw - t.1 ∧ pw - t.1 ≤ 1000 then some (pw - t.1, t.1, t.2.2)
    else none

/-- Primary option generation (step 2 of `_optimize_2d_with_lengths`), before
ids are assigned: per demand key, a `solid` option when the width equals the
plate width; else, when narrower, a `direct` option if the rest is at least
`min_useful_width`, followed by the `indirect` (narrowing-table) options. -/
def primary_raw0 (pw mu : ℕ) (demand : List ((ℚ × ℕ) × ℕ)) : List POpt :=
  demand.flatMap fun e =>
    if e.1.2 = pw then
      [⟨0, e.1.1, e.1.2, 0, PKind.solid, 0, 0⟩]
    else if e.1.2 < pw then
      (if mu ≤ pw - e.1.2 then [⟨0, e.1.1, e.1.2, pw - e.1.2, PKind.direct, 0, 0⟩] else []) ++
      ((target_to_sources pw e.1.2).filterMap fun t =>
        if t.1 ≠ e.1.2 ∧ mu ≤ t.2.1 then
          some ⟨0, e.1.1, t.1, t.2.1, PKind.indirect, e.1.2, t.2.2⟩
        else none)
    else []

/-- Assign sequential ids (`option_id` counter) to a generated option list. -/
def withIdsP : ℕ → List POpt → List POpt
  | _, [] => []
  | n, o :: rest => { o with id := n } :: withIdsP (n + 1) rest

/-- Primary options with their ids, as `primary_options` before filtering. -/
def primary_raw (pw mu : ℕ) (demand : List ((ℚ × ℕ) × ℕ)) : List POpt :=
  withIdsP 0 (primary_raw0 pw mu demand)

/-- Primary option filter (step 2.5): drop options with a positive rest below
`min_useful_width`, and drop an `indirect` option when some `direct` option in
the unfiltered list yields the same target width at a matching length. -/
@[reducible] def keep_primary (all : List POpt) (mu : ℕ) (o : POpt) : Prop :=
  ¬(0 < o.rest ∧ o.rest < mu) ∧
  (o.kind = PKind.indirect →
    ¬∃ p ∈ all, p.kind = PKind.direct ∧ p.main = o.target_width ∧
      |p.length - o.length| ≤ tolerance_length)

/-- Surviving primary options (`filtered_primary` / reassigned
`primary_options`). -/
def filtered_primary (pw mu : ℕ) (demand : List ((ℚ × ℕ) × ℕ)) : List POpt :=
  (primary_raw pw mu demand).filter fun o =>
    decide (keep_primary (primary_raw pw mu demand) mu o)

/-- Remnant key of a primary option: `(length, rest)`. -/
def okey (o : POpt) : ℚ × ℕ := (o.length, o.rest)

/-- One update of the `possible_rests` dict: append the option id to an
existing key's list, else append a fresh entry. -/
def addRest (m : List ((ℚ × ℕ) × List ℕ)) (k : ℚ × ℕ) (i : ℕ) : List ((ℚ × ℕ) × List ℕ) :=
  match m with
  | [] => [(k, [i])]
  | e :: rest => if e.1 = k then (e.1, e.2 ++ [i]) :: rest else e :: addRest rest k i

/-- The `possible_rests` map: every `(length, rest)` a surviving primary option
produces, with the list of producing option ids. -/
def possible_rests (opts : List POpt) : List ((ℚ × ℕ) × List ℕ) :=
  opts.foldl (fun m o => addRest m (okey o) o.id) []

/-- Kind tag of a secondary cut option
(`'multiple' | 'multiple_transverse' | 'narrowing' | 'transverse'`). -/
inductive SKind
  | multiple
  | multiple_transverse
  | narrowing
  | transverse
  deriving DecidableEq

/-- Secondary cut option record.  `waste` is the width waste in millimetres;
`length_waste` is the length waste in millimetres (a rational, since it is
`(source_length - target_length) * 1000`); options without the key read it as
0 via `opt.get('length_waste', 0)`. -/
structure SOpt where
  id : ℕ
  source_length : ℚ
  source_rest : ℕ
  output_length : ℚ
  output_width : ℕ
  pieces : ℕ
  waste : ℕ
  length_waste : ℚ
  kind : SKind
  source_ids : List ℕ
  deriving DecidableEq

/-- Secondary options generated for one remnant `(sl, sw)` (with producing ids
`sids`) against one demand key `(tl, tw)`: variants A (multiple),
A2 (multiple_transverse), B (narrowing) and C (transverse), in program order. -/
def sec_options_for (sl : ℚ) (sw : ℕ) (sids : List ℕ) (tl : ℚ) (tw : ℕ) : List SOpt :=
  (if |tl - sl| ≤ tolerance_length ∧ 2 ≤ sw / tw ∧ 2 * (sw - sw / tw * tw) < sw then
    [⟨0, sl, sw, tl, tw, sw / tw, sw - sw / tw * tw, 0, SKind.multiple, sids⟩]
  else []) ++
  (if tl < sl - 1 / 10 ∧ 2 ≤ sw / tw ∧ 2 * (sw - sw / tw * tw) < sw then
    [⟨0, sl, sw, tl, tw, sw / tw, sw - sw / tw * tw, (sl - tl) * 1000,
      SKind.multiple_transverse, sids⟩]
  else []) ++
  (if |tl - sl| ≤ tolerance_length ∧ tw < sw ∧ sw ≤ tw + 100 ∧ sw - tw ≤ 100 then
    [⟨0, sl, sw, tl, tw, 1, sw - tw, 0, SKind.narrowing, sids⟩]
  else []) ++
  (if tl < sl - 1 / 10 ∧ wdist tw sw ≤ tolerance_width then
    [⟨0, sl, sw, tl, tw, 1, 0, (sl - tl) * 1000, SKind.transverse, sids⟩]
  else [])

/-- Secondary option generation (step 3), before ids: for every possible rest
of width at least `min_useful_width` and every demand key, the applicable
variants. -/
def secondary_raw0 (mu : ℕ) (demand : List ((ℚ × ℕ) × ℕ))
    (rests : List ((ℚ × ℕ) × List ℕ)) : List SOpt :=
  rests.flatMap fun r =>
    if r.1.2 < mu then []
    else demand.flatMap fun e => sec_options_for r.1.1 r.1.2 r.2 e.1.1 e.1.2

/-- Assign sequential ids (`sec_id` counter) to generated secondary options. -/
def withIdsS : ℕ → List SOpt → List SOpt
  | _, [] => []
  | n, o :: rest => { o with id := n } :: withIdsS (n + 1) rest

/-- Secondary options with ids, as `secondary_options` before filtering. -/
def secondary_raw (pw mu : ℕ) (demand : List ((ℚ × ℕ) × ℕ)) : List SOpt :=
  withIdsS 0 (secondary_raw0 mu demand (possible_rests (filtered_primary pw mu demand)))

/-- De-duplication key of a secondary option (filter rule 3). -/
def secKey (o : SOpt) : ℚ × ℕ × ℚ × ℕ × SKind :=
  (o.source_length, o.source_rest, o.output_length, o.output_width, o.kind)

/-- Waste-based drop rules for secondary options: rule 4 (combined waste area
over 30% of the source remnant area) and rule 5 (transverse options whose
length-waste fraction exceeds 50%). -/
@[reducible] def waste_drop (o : SOpt) : Prop :=
  ((o.waste : ℚ) * o.source_length + o.length_waste * (o.source_rest : ℚ) / 1000 >
    o.source_length * (o.source_rest : ℚ) * (3 / 10)) ∨
  (o.kind = SKind.transverse ∧
    (if 0 < o.source_length then o.length_waste / (o.source_length * 1000) else 0) > 1 / 2)

/-- Secondary option filter (step 3.5): de-duplicate by `secKey` (the key is
recorded as seen even when the option is then dropped by a waste rule) and
apply the waste drop rules. -/
def filter_secondary : List SOpt → List (ℚ × ℕ × ℚ × ℕ × SKind) → List SOpt
  | [], _ => []
  | o :: rest, seen =>
    if secKey o ∈ seen then filter_secondary rest seen
    else if decide (waste_drop o) then filter_secondary rest (secKey o :: seen)
    else o :: filter_secondary rest (secKey o :: seen)

/-- Surviving secondary options (reassigned `secondary_options`). -/
def filtered_secondary (pw mu : ℕ) (demand : List ((ℚ × ℕ) × ℕ)) : List SOpt :=
  filter_secondary (secondary_raw pw mu demand) []

/-- An integer assignment to the decision variables of the model: `xp i` is the
value of `prim_i`, `xs i` the value of `sec_i` (both `lowBound=0`, integer). -/
structure Sol where
  xp : ℕ → ℕ
  xs : ℕ → ℕ

/-- A primary option is a source for demand key `(tl, tw)` (constraint step 5):
either a direct/solid option whose main width matches within tolerance, or an
indirect option whose target width matches within tolerance. -/
@[reducible] def primMatch (tl : ℚ) (tw : ℕ) (o : POpt) : Prop :=
  (|o.length - tl| ≤ tolerance_length ∧ wdist o.main tw ≤ tolerance_width ∧
    (o.kind = PKind.direct ∨ o.kind = PKind.solid)) ∨
  (|o.length - tl| ≤ tolerance_length ∧ o.kind = PKind.indirect ∧
    wdist o.target_width tw ≤ tolerance_width)

/-- A secondary option is a source for demand key `(tl, tw)`. -/
@[reducible] def secMatch (tl : ℚ) (tw : ℕ) (s : SOpt) : Prop :=
  |s.output_length - tl| ≤ tolerance_length ∧ wdist s.output_width tw ≤ tolerance_width

/-- A primary option counts toward the solid-priority constraint (step 5.5) for
demand key `(tl, tw)`: matching length, exact main width, solid kind. -/
@[reducible] def solidMatch (tl : ℚ) (tw : ℕ) (o : POpt) : Prop :=
  |o.length - tl| ≤ tolerance_length ∧ o.main = tw ∧ o.kind = PKind.solid

/-- Left-hand side of the demand constraint for key `(tl, tw)`: matching
primary variables plus matching secondary variables weighted by `pieces`. -/
def coverage (P : List POpt) (S : List SOpt) (sol : Sol) (tl : ℚ) (tw : ℕ) : ℕ :=
  (P.map fun o => if primMatch tl tw o then sol.xp o.id else 0).sum +
  (S.map fun s => if secMatch tl tw s then sol.xs s.id * s.pieces else 0).sum

/-- Left-hand side of the solid-priority constraint for key `(tl, tw)`. -/
def solidSum (P : List POpt) (sol : Sol) (tl : ℚ) (tw : ℕ) : ℕ :=
  (P.map fun o => if solidMatch tl tw o then sol.xp o.id else 0).sum

/-- The secondary options consuming remnant key `k` in the balance constraint
(step 6): source length within tolerance, source rest exactly equal. -/
def consumedList (S : List SOpt) (k : ℚ × ℕ) : List SOpt :=
  S.filter fun s => decide (|s.source_length - k.1| ≤ tolerance_length ∧ s.source_rest = k.2)

/-- The producing variables of the balance constraint: ids from `source_ids`
whose option (looked up by id in the surviving primary list) is not solid. -/
def producedList (P : List POpt) (ids : List ℕ) : List ℕ :=
  ids.filter fun i =>
    match P.find? (fun p => decide (p.id = i)) with
    | some o => decide (o.kind ≠ PKind.solid)
    | none => false

/-- The data of the ILP model built by `_optimize_2d_with_lengths` for a given
plate width, minimum useful width and order list. -/
structure Model where
  demand : List ((ℚ × ℕ) × ℕ)
  prim : List POpt
  sec : List SOpt
  rests : List ((ℚ × ℕ) × List ℕ)

/-- Build the model data exactly as the code does. -/
def buildModel (pw mu : ℕ) (orders : List Order2D) : Model :=
  { demand := demand_2d orders
    prim := filtered_primary pw mu (demand_2d orders)
    sec := filtered_secondary pw mu (demand_2d orders)
    rests := possible_rests (filtered_primary pw mu (demand_2d orders)) }

/-- The constraint set of the model (steps 5, 5.5 and 6), as satisfied by any
solution the solver reports optimal.  A demand constraint is added only when
its source list is non-empty; the solid-priority constraint only for demand
width literally 1200; the balance constraint only for non-zero rest keys with
non-empty produced and consumed lists. -/
@[reducible] def Feasible (M : Model) (sol : Sol) : Prop :=
  (∀ e ∈ M.demand,
    ((∃ o ∈ M.prim, primMatch e.1.1 e.1.2 o) ∨ (∃ s ∈ M.sec, secMatch e.1.1 e.1.2 s)) →
    e.2 ≤ coverage M.prim M.sec sol e.1.1 e.1.2) ∧
  (∀ e ∈ M.demand, e.1.2 = 1200 →
    (∃ o ∈ M.prim, solidMatch e.1.1 e.1.2 o) →
    e.2 ≤ solidSum M.prim sol e.1.1 e.1.2) ∧
  (∀ r ∈ M.rests, r.1.2 ≠ 0 →
    producedList M.prim r.2 ≠ [] →
    consumedList M.sec r.1 ≠ [] →
    ((consumedList M.sec r.1).map fun s => sol.xs s.id).sum ≤
      ((producedList M.prim r.2).map sol.xp).sum)

/-- Plate price for a primary option: `get_price(length, 8, ...)` through an
abstract price oracle, defaulting to 10000 when the database has no entry. -/
def platePrice (gp : ℚ → ℕ → Option ℚ) (l : ℚ) : ℚ := (gp l 8).getD 10000

/-- Base price used for remnant valuation: `get_price(length, 6, ...)`,
defaulting to 5000. -/
def basePrice (gp : ℚ → ℕ → Option ℚ) (l : ℚ) : ℚ := (gp l 6).getD 5000

/-- Longitudinal cut cost of a primary option: charged for direct and indirect
cuts, zero for solid plates. -/
def primCutCost (o : POpt) : ℚ :=
  if o.kind = PKind.direct ∨ o.kind = PKind.indirect then LONG_CUT_PRICE_PER_M * o.length
  else 0

/-- Primary-cut term of the objective (step 7.1): every option contributes
quantity times plate price plus cut cost, and solid options additionally get a
flat 5000 discount per plate. -/
def primaryCostTerm (gp : ℚ → ℕ → Option ℚ) (P : List POpt) (sol : Sol) : ℚ :=
  (P.map fun o =>
    (sol.xp o.id : ℚ) *
      (platePrice gp o.length + primCutCost o - if o.kind = PKind.solid then 5000 else 0)).sum

/-- Modelled from the spec: the primary-cut objective term as §4.6 words it,
quantity times (stock unit price via the Price Oracle plus longitudinal cut
cost when not Solid), with no other per-option addends.  Used only to compare
against `primaryCostTerm`. -/
def specPrimaryCostTerm (gp : ℚ → ℕ → Option ℚ) (P : List POpt) (sol : Sol) : ℚ :=
  (P.map fun o => (sol.xp o.id : ℚ) * (platePrice gp o.length + primCutCost o)).sum

/-- Secondary-cut term of the objective (step 7.2): longitudinal cut cost of
the source length for narrowing/multiple/multiple_transverse, plus the flat
transverse fee for transverse/multiple_transverse. -/
def secondaryCostTerm (S : List SOpt) (sol : Sol) : ℚ :=
  (S.map fun s =>
    (if s.kind = SKind.narrowing ∨ s.kind = SKind.multiple ∨
        s.kind = SKind.multiple_transverse then
      (sol.xs s.id : ℚ) * (LONG_CUT_PRICE_PER_M * s.source_length)
    else 0) +
    (if s.kind = SKind.transverse ∨ s.kind = SKind.multiple_transverse then
      (sol.xs s.id : ℚ) * TRANSVERSE_CUT_PRICE
    else 0)).sum

/-- Unused-remnant penalty (step 7.3): for every possible rest key, when both
the produced id list and the tolerance-matched consumer list are non-empty,
(produced - consumed) times the notional rest price times 0.5.  The produced
side here is all `source_ids`, with no kind check. -/
def unusedPenaltyTerm (gp : ℚ → ℕ → Option ℚ) (S : List SOpt)
    (rests : List ((ℚ × ℕ) × List ℕ)) (sol : Sol) : ℚ :=
  (rests.map fun r =>
    if r.2 ≠ [] ∧ consumedList S r.1 ≠ [] then
      (((r.2.map sol.xp).sum : ℚ) - (((consumedList S r.1).map fun s => sol.xs s.id).sum : ℚ)) *
        (basePrice gp r.1.1 * ((r.1.2 : ℚ) / 1200)) * (1 / 2)
    else 0).sum

/-- Waste penalty (step 7.4): width waste area and length waste area of each
secondary option, at 1000 per square metre. -/
def wastePenaltyTerm (S : List SOpt) (sol : Sol) : ℚ :=
  (S.map fun s =>
    (if 0 < s.waste then
      (sol.xs s.id : ℚ) * ((s.waste : ℚ) / 1000 * s.source_length * 1000)
    else 0) +
    (if 0 < s.length_waste then
      (sol.xs s.id : ℚ) * (s.length_waste / 1000 * ((s.source_rest : ℚ) / 1000) * 1000)
    else 0)).sum

/-- Reuse bonus (step 7.5): minus 500 per selected secondary cut. -/
def reuseBonusTerm (S : List SOpt) (sol : Sol) : ℚ :=
  (S.map fun s => -((sol.xs s.id : ℚ) * 500)).sum

/-- The full minimized objective (step 7.6). -/
def totalObjective (gp : ℚ → ℕ → Option ℚ) (M : Model) (sol : Sol) : ℚ :=
  primaryCostTerm gp M.prim sol + secondaryCostTerm M.sec sol +
    unusedPenaltyTerm gp M.sec M.rests sol + wastePenaltyTerm M.sec sol +
    reuseBonusTerm M.sec sol

/-- Grouped primary cut result entry. -/
structure PrimCutRes where
  width : ℕ
  rest : ℕ
  qty : ℕ
  lengths : List ℚ
  deriving DecidableEq

/-- Grouped secondary cut result entry. -/
structure SecCutRes where
  source : ℕ
  cuts : List ℕ
  qty : ℕ
  pieces : ℕ
  waste : ℕ
  kind : SKind
  source_lengths : List ℚ
  lengths : List ℚ
  deriving DecidableEq

/-- Origin tag of a produced piece (`'primary' | 'secondary'`). -/
inductive AssignOrigin
  | primary
  | secondary
  deriving DecidableEq

/-- One physically produced piece (`plate_assignments` entry); `rest_info` is
the primary option's rest width resp. the secondary option's source rest. -/
structure Assignment where
  length : ℚ
  width : ℕ
  origin : AssignOrigin
  rest_info : ℕ
  deriving DecidableEq

/-- The structured cutting plan returned on success (step 9). -/
structure Plan2D where
  primary_cuts : List PrimCutRes
  secondary_cuts : List SecCutRes
  total_plates : ℕ
  plate_assignments : List Assignment
  deriving DecidableEq

/-- Result extraction (step 9): keep options with positive solved quantity,
group them, count total plates from primary quantities only, and expand each
selected option into per-piece assignments (secondary quantities times
`pieces`). -/
def extract_plan (P : List POpt) (S : List SOpt) (sol : Sol) : Plan2D :=
  { primary_cuts := P.filterMap fun o =>
      if 0 < sol.xp o.id then
        some { width := o.main, rest := o.rest, qty := sol.xp o.id
               lengths := List.replicate (sol.xp o.id) o.length }
      else none
    secondary_cuts := S.filterMap fun s =>
      if 0 < sol.xs s.id then
        some { source := s.source_rest, cuts := [s.output_width], qty := sol.xs s.id
               pieces := s.pieces, waste := s.waste, kind := s.kind
               source_lengths := List.replicate (sol.xs s.id) s.source_length
               lengths := List.replicate (sol.xs s.id) s.output_length }
      else none
    total_plates := (P.map fun o => sol.xp o.id).sum
    plate_assignments :=
      (P.flatMap fun o =>
        List.replicate (sol.xp o.id) ⟨o.length, o.main, AssignOrigin.primary, o.rest⟩) ++
      (S.flatMap fun s =>
        List.replicate (sol.xs s.id * s.pieces)
          ⟨s.output_length, s.output_width, AssignOrigin.secondary, s.source_rest⟩) }

/-- Status the external solver reports for the built model. -/
inductive SolveStatus
  | optimal
  | infeasible
  | undefinedStatus
  deriving DecidableEq

/-- A Python return value of `_optimize_2d_with_lengths`: either the bare
empty dict `{}` or a populated plan dict. -/
inductive PyReturn
  | emptyDict
  | planDict (p : Plan2D)
  deriving DecidableEq

/-- Top-level control flow of `_optimize_2d_with_lengths`: return `{}` when
PuLP cannot be imported, when the order list is empty, or when the solver
status is not Optimal; otherwise extract the plan from the solver's variable
assignment. -/
def optimize_2d_with_lengths (pulpAvailable : Bool) (orders : List Order2D)
    (pw mu : ℕ) (status : SolveStatus) (sol : Sol) : PyReturn :=
  if !pulpAvailable then PyReturn.emptyDict
  else if orders.isEmpty then PyReturn.emptyDict
  else if status ≠ SolveStatus.optimal then PyReturn.emptyDict
  else
    PyReturn.planDict
      (extract_plan (filtered_primary pw mu (demand_2d orders))
        (filtered_secondary pw mu (demand_2d orders)) sol)

/-- Total quantity stored in a demand map under one exact key. -/
def keyQty (m : List ((ℚ × ℕ) × ℕ)) (k : ℚ × ℕ) : ℕ :=
  (m.map fun e => if e.1 = k then e.2 else 0).sum

/-- Total selected quantity of secondary options whose source remnant key is
exactly `k` (the claim-level notion of consumption of a remnant). -/
def exactConsumedSum (S : List SOpt) (sol : Sol) (k : ℚ × ℕ) : ℕ :=
  (S.map fun s => if s.source_length = k.1 ∧ s.source_rest = k.2 then sol.xs s.id else 0).sum

/-- Total selected quantity of non-solid primary options whose remnant key is
exactly `k` (the claim-level notion of production of a remnant). -/
def nonSolidProducedSum (P : List POpt) (sol : Sol) (k : ℚ × ℕ) : ℕ :=
  (P.map fun o => if okey o = k ∧ o.kind ≠ PKind.solid then sol.xp o.id else 0).sum

/-- The all-zero variable assignment. -/
def solZero : Sol := ⟨fun _ => 0, fun _ => 0⟩

/-- The assignment taking every primary variable to 1 and every secondary
variable to 0. -/
def solOne : Sol := ⟨fun _ => 1, fun _ => 0⟩

/-- A price oracle with no database entries, so every lookup falls back to the
default price. -/
def gpNone : ℚ → ℕ → Option ℚ := fun _ _ => none

/-- The assignment selecting primary option 1 once and secondary option 0
once, everything else zero. -/
def solC4 : Sol := ⟨fun i => if i = 1 then 1 else 0, fun i => if i = 0 then 1 else 0⟩

/-- A piece to lay into tracks (`Piece` dataclass; only the fields the packing
logic reads are modelled: length in metres and quantity). -/
structure TPiece where
  length_m : ℚ
  qty : ℕ
  deriving DecidableEq

/-- A production track (`Track` dataclass): placed piece lengths, used length,
and the leftover filled in after packing. -/
structure Track where
  pieces : List ℚ := []
  total_m : ℚ := 0
  leftover_m : ℚ := 0
  deriving DecidableEq

/-- Place one piece by first fit: into the first track where it fits under the
capacity (`total_m + length ≤ stock_len_m`), else into a fresh track appended
at the end of the pool. -/
def ffdInsert (cap : ℚ) : List Track → ℚ → List Track
  | [], l => [{ pieces := [l], total_m := l }]
  | t :: ts, l =>
    if t.total_m + l ≤ cap then
      { t with pieces := t.pieces ++ [l], total_m := t.total_m + l } :: ts
    else t :: ffdInsert cap ts l

/-- The `first_fit_decreasing` packer: sort pieces by descending length,
expand quantities, place each piece first-fit, then record each track's
leftover as capacity minus used length. -/
def first_fit_decreasing (pieces : List TPiece) (stock_len_m : ℚ) : List Track :=
  let sorted_pieces := List.insertionSort (fun a b : TPiece => b.length_m ≤ a.length_m) pieces
  let expanded := sorted_pieces.flatMap fun p => List.replicate p.qty p.length_m
  let pool := expanded.foldl (ffdInsert stock_len_m) []
  pool.map fun t => { t with leftover_m := stock_len_m - t.total_m }

/-! Helper lemmas. -/

/-- Summing an if-guarded map equals summing the map over the filtered list. -/
theorem sum_map_ite_eq_filter {α : Type} (l : List α) (p : α → Prop) [DecidablePred p]
    (f : α → ℕ) :
    (l.map fun a => if p a then f a else 0).sum = ((l.filter fun a => decide (p a)).map f).sum := by
  induction l with
  | nil => rfl
  | cons a t ih =>
    by_cases h : p a <;> simp [List.filter_cons, h, ih]

/-- Pointwise monotone if-guards give a sum inequality over the same list. -/
theorem sum_map_ite_le {α : Type} (l : List α) (p q : α → Prop) [DecidablePred p]
    [DecidablePred q] (f : α → ℕ) (hpq : ∀ a ∈ l, p a → q a) :
    (l.map fun a => if p a then f a else 0).sum ≤ (l.map fun a => if q a then f a else 0).sum := by
  induction l with
  | nil => exact Nat.le_refl _
  | cons a t ih =>
    simp only [List.map_cons, List.sum_cons]
    have h1 : (if p a then f a else 0) ≤ (if q a then f a else 0) := by
      by_cases h : p a
      · simp [h, hpq a (by simp) h]
      · simp [h]
    exact Nat.add_le_add h1 (ih fun x hx => hpq x (by simp [hx]))

/-- Unfolding lemma for `keyQty` on a cons cell. -/
theorem keyQty_cons (e : (ℚ × ℕ) × ℕ) (t : List ((ℚ × ℕ) × ℕ)) (k : ℚ × ℕ) :
    keyQty (e :: t) k = (if e.1 = k then e.2 else 0) + keyQty t k := by
  simp [keyQty]

/-- Updating the demand map changes `keyQty` only at the updated key. -/
theorem addDemand_keyQty (m : List ((ℚ × ℕ) × ℕ)) (k : ℚ × ℕ) (q : ℕ) (k' : ℚ × ℕ) :
    keyQty (addDemand m k q) k' = keyQty m k' + if k = k' then q else 0 := by
  induction m with
  | nil =>
    by_cases h : k = k' <;> simp [addDemand, keyQty, h]
  | cons e t ih =>
    simp only [addDemand]
    by_cases h : e.1 = k
    · simp only [if_pos h]
      by_cases h2 : e.1 = k'
      · have h3 : k = k' := h.symm.trans h2
        simp [keyQty_cons, h2, h3]
        omega
      · have h3 : ¬k = k' := fun hh => h2 (h.trans hh)
        simp [keyQty_cons, h2, h3]
    · simp only [if_neg h]
      simp [keyQty_cons, ih]
      omega

/-- The key list after a demand update: unchanged if the key was present,
else the key is appended. -/
theorem addDemand_keys (m : List ((ℚ × ℕ) × ℕ)) (k : ℚ × ℕ) (q : ℕ) :
    (addDemand m k q).map (·.1) =
      if k ∈ m.map (·.1) then m.map (·.1) else m.map (·.1) ++ [k] := by
  induction m with
  | nil => simp [addDemand]
  | cons e t ih =>
    by_cases h : e.1 = k
    · simp [addDemand, h]
    · have hne : ¬k = e.1 := fun hk => h hk.symm
      by_cases h2 : k ∈ t.map (·.1) <;> simp [addDemand, h, hne, h2, ih]

/-- The demand fold keeps exact-key totals: folding orders into any initial map
adds exactly the per-key order quantities. -/
theorem demand_foldl_keyQty (orders : List Order2D) (m : List ((ℚ × ℕ) × ℕ)) (k : ℚ × ℕ) :
    keyQty (orders.foldl (fun m o => addDemand m (o.length, o.width) o.qty) m) k =
      keyQty m k + (orders.map fun o => if (o.length, o.width) = k then o.qty else 0).sum := by
  induction orders generalizing m with
  | nil => simp
  | cons o t ih =>
    simp only [List.foldl_cons, List.map_cons, List.sum_cons, ih, addDemand_keyQty]
    omega

/-- The demand fold keeps the key list duplicate-free. -/
theorem demand_foldl_nodup (orders : List Order2D) (m : List ((ℚ × ℕ) × ℕ))
    (hm : (m.map (·.1)).Nodup) :
    ((orders.foldl (fun m o => addDemand m (o.length, o.width) o.qty) m).map (·.1)).Nodup := by
  induction orders generalizing m with
  | nil => exact hm
  | cons o t ih =>
    refine ih _ ?_
    rw [addDemand_keys]
    by_cases h : (o.length, o.width) ∈ m.map (·.1)
    · simpa [h] using hm
    · simp [h, List.nodup_append, hm]

/-! Track packer lemmas. -/

/-- First-fit insertion preserves the capacity bound when the piece fits it. -/
theorem ffdInsert_total_le (cap : ℚ) (pool : List Track) (l : ℚ)
    (hp : ∀ t ∈ pool, t.total_m ≤ cap) (hl : l ≤ cap) :
    ∀ t ∈ ffdInsert cap pool l, t.total_m ≤ cap := by
  induction pool with
  | nil =>
    intro t ht
    simp only [ffdInsert, List.mem_singleton] at ht
    subst ht
    simpa using hl
  | cons a ts ih =>
    intro t ht
    by_cases h : a.total_m + l ≤ cap
    · simp only [ffdInsert, if_pos h, List.mem_cons] at ht
      rcases ht with h1 | h2
      · subst h1; simpa using h
      · exact hp t (by simp [h2])
    · simp only [ffdInsert, if_neg h, List.mem_cons] at ht
      rcases ht with h1 | h2
      · exact hp t (by simp [h1])
      · exact ih (fun u hu => hp u (by simp [hu])) t h2

/-- First-fit insertion adds exactly one piece entry to the pool. -/
theorem ffdInsert_count (cap : ℚ) (pool : List Track) (l : ℚ) :
    ((ffdInsert cap pool l).map fun t => t.pieces.length).sum =
      ((pool.map fun t => t.pieces.length).sum) + 1 := by
  induction pool with
  | nil => simp [ffdInsert]
  | cons a ts ih =>
    by_cases h : a.total_m + l ≤ cap
    · simp [ffdInsert, h]
      omega
    · simp [ffdInsert, h, ih]
      omega

/-- First-fit insertion preserves that used length is the sum of the placed
pieces and that all placed pieces are nonnegative. -/
theorem ffdInsert_inv (cap : ℚ) (pool : List Track) (l : ℚ)
    (hp : ∀ t ∈ pool, t.total_m = t.pieces.sum ∧ ∀ x ∈ t.pieces, 0 ≤ x) (hl : 0 ≤ l) :
    ∀ t ∈ ffdInsert cap pool l, t.total_m = t.pieces.sum ∧ ∀ x ∈ t.pieces, 0 ≤ x := by
  induction pool with
  | nil =>
    intro t ht
    simp only [ffdInsert, List.mem_singleton] at ht
    subst ht
    constructor
    · simp
    · intro x hx; simp at hx; subst hx; exact hl
  | cons a ts ih =>
    intro t ht
    by_cases h : a.total_m + l ≤ cap
    · simp only [ffdInsert, if_pos h, List.mem_cons] at ht
      rcases ht with h1 | h2
      · subst h1
        refine ⟨?_, ?_⟩
        · have := (hp a (by simp)).1
          simp [this]
        · intro x hx
          simp only [List.mem_append, List.mem_singleton] at hx
          rcases hx with hx | hx
          · exact (hp a (by simp)).2 x hx
          · subst hx; exact hl
      · exact hp t (by simp [h2])
    · simp only [ffdInsert, if_neg h, List.mem_cons] at ht
      rcases ht with h1 | h2
      · exact hp t (by simp [h1])
      · exact ih (fun u hu => hp u (by simp [hu])) t h2

/-- The inserted piece lands in some track of the new pool. -/
theorem ffdInsert_mem_new (cap : ℚ) (pool : List Track) (l : ℚ) :
    ∃ t ∈ ffdInsert cap pool l, l ∈ t.pieces := by
  induction pool with
  | nil =>
    refine ⟨{ pieces := [l], total_m := l }, ?_, ?_⟩ <;> simp [ffdInsert]
  | cons a ts ih =>
    by_cases h : a.total_m + l ≤ cap
    · refine ⟨{ a with pieces := a.pieces ++ [l], total_m := a.total_m + l }, ?_, ?_⟩ <;>
        simp [ffdInsert, h]
    · obtain ⟨t, ht, hl⟩ := ih
      exact ⟨t, by simp [ffdInsert, h, ht], hl⟩

/-- Pieces already placed stay placed after a first-fit insertion. -/
theorem ffdInsert_mem_old (cap : ℚ) (pool : List Track) (l x : ℚ) (t : Track)
    (ht : t ∈ pool) (hx : x ∈ t.pieces) :
    ∃ u ∈ ffdInsert cap pool l, x ∈ u.pieces := by
  induction pool with
  | nil => cases ht
  | cons a ts ih =>
    by_cases h : a.total_m + l ≤ cap
    · rcases List.mem_cons.mp ht with h1 | h2
      · refine ⟨{ a with pieces := a.pieces ++ [l], total_m := a.total_m + l }, ?_, ?_⟩
        · simp [ffdInsert, h]
        · simp [h1 ▸ hx]
      · exact ⟨t, by simp [ffdInsert, h, h2], hx⟩
    · rcases List.mem_cons.mp ht with h1 | h2
      · exact ⟨t, by simp [ffdInsert, h, h1], hx⟩
      · obtain ⟨u, hu, hxu⟩ := ih h2
        exact ⟨u, by simp [ffdInsert, h, hu], hxu⟩

/-- Folding a batch of pieces preserves the capacity bound when every piece
fits it. -/
theorem packFold_total_le (cap : ℚ) (xs : List ℚ) (pool : List Track)
    (hp : ∀ t ∈ pool, t.total_m ≤ cap) (hx : ∀ x ∈ xs, x ≤ cap) :
    ∀ t ∈ xs.foldl (ffdInsert cap) pool, t.total_m ≤ cap := by
  induction xs generalizing pool with
  | nil => exact hp
  | cons x t ih =>
    exact ih _ (ffdInsert_total_le cap pool x hp (hx x (by simp)))
      (fun y hy => hx y (by simp [hy]))

/-- Folding a batch of pieces adds exactly its length to the piece count. -/
theorem packFold_count (cap : ℚ) (xs : List ℚ) (pool : List Track) :
    ((xs.foldl (ffdInsert cap) pool).map fun t => t.pieces.length).sum =
      ((pool.map fun t => t.pieces.length).sum) + xs.length := by
  induction xs generalizing pool with
  | nil => simp
  | cons x t ih =>
    simp only [List.foldl_cons, ih, ffdInsert_count, List.length_cons]
    omega

/-- Folding preserves the totals-are-sums and nonnegativity invariant. -/
theorem packFold_inv (cap : ℚ) (xs : List ℚ) (pool : List Track)
    (hp : ∀ t ∈ pool, t.total_m = t.pieces.sum ∧ ∀ x ∈ t.pieces, 0 ≤ x)
    (hx : ∀ x ∈ xs, 0 ≤ x) :
    ∀ t ∈ xs.foldl (ffdInsert cap) pool, t.total_m = t.pieces.sum ∧ ∀ x ∈ t.pieces, 0 ≤ x := by
  induction xs generalizing pool with
  | nil => exact hp
  | cons x t ih =>
    exact ih _ (ffdInsert_inv cap pool x hp (hx x (by simp)))
      (fun y hy => hx y (by simp [hy]))

/-- A piece already placed somewhere in the pool is still placed after folding
further pieces. -/
theorem packFold_mem_old (cap : ℚ) (xs : List ℚ) (pool : List Track) (x : ℚ) (t : Track)
    (ht : t ∈ pool) (hx : x ∈ t.pieces) :
    ∃ u ∈ xs.foldl (ffdInsert cap) pool, x ∈ u.pieces := by
  induction xs generalizing pool t with
  | nil => exact ⟨t, ht, hx⟩
  | cons y ys ih =>
    obtain ⟨u, hu, hxu⟩ := ffdInsert_mem_old cap pool y x t ht hx
    exact ih _ u hu hxu

/-- Every folded piece ends up placed in some track. -/
theorem packFold_mem (cap : ℚ) (xs : List ℚ) (pool : List Track) (x : ℚ) (hx : x ∈ xs) :
    ∃ u ∈ xs.foldl (ffdInsert cap) pool, x ∈ u.pieces := by
  induction xs generalizing pool with
  | nil => cases hx
  | cons y ys ih =>
    rcases List.mem_cons.mp hx with h1 | h2
    · subst h1
      obtain ⟨u, hu, hxu⟩ := ffdInsert_mem_new cap pool x
      exact packFold_mem_old cap ys _ x u hu hxu
    · exact ih _ h2

/-- Membership in the expanded piece list: exactly the lengths of input pieces
with positive quantity. -/
theorem mem_expanded (ps : List TPiece) (x : ℚ) :
    x ∈ (ps.flatMap fun p => List.replicate p.qty p.length_m) ↔
      ∃ p ∈ ps, p.qty ≠ 0 ∧ x = p.length_m := by
  simp [List.mem_flatMap, List.mem_replicate]

/-- Length of the expanded piece list is the total input quantity. -/
theorem length_expanded (l : List TPiece) :
    (l.flatMap fun p => List.replicate p.qty p.length_m).length = (l.map (·.qty)).sum := by
  induction l with
  | nil => rfl
  | cons p t ih => simp [ih]

/-- Membership in the descending insertion sort agrees with the input list. -/
theorem mem_sortDesc (ps : List TPiece) (p : TPiece) :
    p ∈ List.insertionSort (fun a b : TPiece => b.length_m ≤ a.length_m) ps ↔ p ∈ ps :=
  (List.perm_insertionSort _ ps).mem_iff

/-! Option id bookkeeping lemmas. -/

/-- Ids assigned by `withIdsP` start at the given counter. -/
theorem withIdsP_le (n : ℕ) (l : List POpt) : ∀ o ∈ withIdsP n l, n ≤ o.id := by
  induction l generalizing n with
  | nil => simp [withIdsP]
  | cons a t ih =>
    intro o ho
    simp only [withIdsP, List.mem_cons] at ho
    rcases ho with h | h
    · subst h; exact Nat.le_refl _
    · exact Nat.le_of_succ_le (ih (n + 1) o h)

/-- Ids assigned by `withIdsP` are strictly increasing along the list. -/
theorem withIdsP_pairwise (n : ℕ) (l : List POpt) :
    (withIdsP n l).Pairwise fun a b => a.id < b.id := by
  induction l generalizing n with
  | nil => exact List.Pairwise.nil
  | cons a t ih =>
    refine List.Pairwise.cons ?_ (ih (n + 1))
    intro o ho
    exact Nat.lt_of_succ_le (withIdsP_le (n + 1) t o ho)

/-- Every option with an id comes from a generated option, unchanged except
for the id field. -/
theorem withIdsP_mem (n : ℕ) (l : List POpt) (o : POpt) (h : o ∈ withIdsP n l) :
    ∃ o0 ∈ l, o = { o0 with id := o.id } := by
  induction l generalizing n with
  | nil => simp [withIdsP] at h
  | cons a t ih =>
    simp only [withIdsP, List.mem_cons] at h
    rcases h with h | h
    · subst h; exact ⟨a, by simp, rfl⟩
    · obtain ⟨o0, h0, he⟩ := ih (n + 1) h
      exact ⟨o0, by simp [h0], he⟩

/-- Every generated secondary option appears in the id-assigned list,
unchanged except for its id. -/
theorem withIdsS_mem_of (n : ℕ) (l : List SOpt) (o0 : SOpt) (h : o0 ∈ l) :
    ∃ o ∈ withIdsS n l, o = { o0 with id := o.id } := by
  induction l generalizing n with
  | nil => cases h
  | cons a t ih =>
    rcases List.mem_cons.mp h with h1 | h1
    · subst h1
      exact ⟨{ o0 with id := n }, by simp [withIdsS], rfl⟩
    · obtain ⟨o, ho, he⟩ := ih (n + 1) h1
      exact ⟨o, by simp [withIdsS, ho], he⟩

/-- With strictly increasing ids, looking an option's id up in the list finds
exactly that option. -/
theorem find_id (P : List POpt) (hnd : P.Pairwise fun a b => a.id < b.id)
    (o : POpt) (ho : o ∈ P) :
    P.find? (fun p => decide (p.id = o.id)) = some o := by
  induction P with
  | nil => cases ho
  | cons a t ih =>
    rcases List.mem_cons.mp ho with h | h
    · subst h
      simp [List.find?_cons]
    · have hlt : a.id < o.id := (List.pairwise_cons.mp hnd).1 o h
      have hne : ¬a.id = o.id := Nat.ne_of_lt hlt
      simp only [List.find?_cons, decide_eq_true_eq, hne, decide_False]
      exact ih (List.pairwise_cons.mp hnd).2 h

/-- The balance constraint's produced-id list, for ids taken from options of
the surviving list, is exactly the non-solid ones among them. -/
theorem producedList_eq (P : List POpt) (hnd : P.Pairwise fun a b => a.id < b.id)
    (l : List POpt) (hl : ∀ o ∈ l, o ∈ P) :
    producedList P (l.map (·.id)) =
      (l.filter fun o => decide (o.kind ≠ PKind.solid)).map (·.id) := by
  induction l with
  | nil => rfl
  | cons a t ih =>
    have ha := find_id P hnd a (hl a (by simp))
    have iht := ih fun o ho => hl o (by simp [ho])
    simp only [producedList] at iht ⊢
    simp only [List.map_cons, List.filter_cons, ha]
    by_cases h : a.kind = PKind.solid
    · simpa [h, decide_not] using iht
    · simpa [h, decide_not] using iht

/-! The `possible_rests` assoc map specification. -/

/-- The key list after an `addRest` update: unchanged if the key was present,
else the key is appended. -/
theorem addRest_keys (m : List ((ℚ × ℕ) × List ℕ)) (k : ℚ × ℕ) (i : ℕ) :
    (addRest m k i).map (·.1) =
      if k ∈ m.map (·.1) then m.map (·.1) else m.map (·.1) ++ [k] := by
  induction m with
  | nil => simp [addRest]
  | cons e t ih =>
    by_cases h : e.1 = k
    · simp [addRest, h]
    · have hne : ¬k = e.1 := fun hk => h hk.symm
      by_cases h2 : k ∈ t.map (·.1) <;> simp [addRest, h, hne, h2, ih]

/-- Characterisation of the entries after an `addRest` update, assuming the
keys are duplicate-free: untouched entries with a different key, the updated
entry with the id appended, or a freshly created entry. -/
theorem addRest_mem (m : List ((ℚ × ℕ) × List ℕ)) (k : ℚ × ℕ) (i : ℕ)
    (hnd : (m.map (·.1)).Nodup) (e : (ℚ × ℕ) × List ℕ) (he : e ∈ addRest m k i) :
    (e ∈ m ∧ e.1 ≠ k) ∨ (∃ ids, (k, ids) ∈ m ∧ e = (k, ids ++ [i])) ∨
      (k ∉ m.map (·.1) ∧ e = (k, [i])) := by
  induction m with
  | nil =>
    simp only [addRest, List.mem_singleton] at he
    exact Or.inr (Or.inr ⟨by simp, he⟩)
  | cons a t ih =>
    rw [List.map_cons, List.nodup_cons] at hnd
    obtain ⟨hnd1, hnd2⟩ := hnd
    by_cases h : a.1 = k
    · simp only [addRest, if_pos h, List.mem_cons] at he
      rcases he with he | he
      · refine Or.inr (Or.inl ⟨a.2, ?_, ?_⟩)
        · have hka : (k, a.2) = a := by rw [← h]
          simp [hka]
        · rw [he, h]
      · refine Or.inl ⟨by simp [he], fun hk => hnd1 ?_⟩
        exact (h.trans hk.symm) ▸ List.mem_map_of_mem _ he
    · simp only [addRest, if_neg h, List.mem_cons] at he
      rcases he with he | he
      · exact Or.inl ⟨by simp [he], by rw [he]; exact h⟩
      · rcases ih hnd2 he with ⟨h1, h2⟩ | ⟨ids, h1, h2⟩ | ⟨h1, h2⟩
        · exact Or.inl ⟨by simp [h1], h2⟩
        · exact Or.inr (Or.inl ⟨ids, by simp [h1], h2⟩)
        · refine Or.inr (Or.inr ⟨?_, h2⟩)
          simp only [List.map_cons, List.mem_cons]
          rintro (hk | hk)
          · exact h hk.symm
          · exact h1 hk

/-- Specification of `possible_rests`: its keys are duplicate-free and are
exactly the remnant keys of the option list, and every entry's id list is
exactly the ids of the options with that remnant key, in order. -/
theorem possible_rests_spec (opts : List POpt) :
    ((possible_rests opts).map (·.1)).Nodup ∧
    (∀ k, k ∈ (possible_rests opts).map (·.1) ↔ ∃ o ∈ opts, okey o = k) ∧
    (∀ e ∈ possible_rests opts,
      e.2 = (opts.filter fun o => decide (okey o = e.1)).map (·.id)) := by
  induction opts using List.reverseRecOn with
  | nil => simp [possible_rests]
  | append_singleton l o ih =>
    obtain ⟨ih1, ih2, ih3⟩ := ih
    have hstep : possible_rests (l ++ [o]) = addRest (possible_rests l) (okey o) o.id := by
      simp [possible_rests, List.foldl_append]
    rw [hstep]
    refine ⟨?_, ?_, ?_⟩
    · rw [addRest_keys]
      by_cases h : okey o ∈ (possible_rests l).map (·.1)
      · simpa [h] using ih1
      · simp [h, List.nodup_append, ih1]
    · intro k
      rw [addRest_keys]
      by_cases h : okey o ∈ (possible_rests l).map (·.1)
      · rw [if_pos h, ih2 k]
        constructor
        · rintro ⟨p, hp, hk⟩
          exact ⟨p, by simp [hp], hk⟩
        · rintro ⟨p, hp, hk⟩
          rcases List.mem_append.mp hp with h1 | h1
          · exact ⟨p, h1, hk⟩
          · rw [List.mem_singleton] at h1
            subst h1
            exact (ih2 k).mp (hk ▸ h)
      · rw [if_neg h]
        rw [List.mem_append, List.mem_singleton, ih2 k]
        constructor
        · rintro (⟨p, hp, hk⟩ | hk)
          · exact ⟨p, by simp [hp], hk⟩
          · exact ⟨o, by simp, hk.symm⟩
        · rintro ⟨p, hp, hk⟩
          rcases List.mem_append.mp hp with h1 | h1
          · exact Or.inl ⟨p, h1, hk⟩
          · rw [List.mem_singleton] at h1
            subst h1
            exact Or.inr hk.symm
    · intro e he
      rcases addRest_mem _ _ _ ih1 e he with ⟨hin, hne⟩ | ⟨ids, hin, heq⟩ | ⟨hnin, heq⟩
      · rw [ih3 e hin, List.filter_append]
        have h0 : ([o].filter fun p => decide (okey p = e.1)) = [] := by
          rw [List.filter_eq_nil_iff]
          intro a ha
          rw [List.mem_singleton] at ha
          subst ha
          simp only [decide_eq_true_eq]
          exact fun hk => hne hk.symm
        simp [h0]
      · have hids := ih3 (okey o, ids) hin
        subst heq
        rw [List.filter_append]
        simp only at hids
        simp [hids]
      · subst heq
        have hfl : (l.filter fun p => decide (okey p = okey o)) = [] := by
          rw [List.filter_eq_nil_iff]
          intro a ha
          simp only [decide_eq_true_eq]
          intro hk
          exact hnin ((ih2 (okey o)).mpr ⟨a, ha, hk⟩)
        rw [List.filter_append]
        simp [hfl]

/-- Structural facts about generated primary options: solid options have no
rest, and every rest is zero or at least the minimum useful width. -/
theorem primary_raw0_inv (pw mu : ℕ) (d : List ((ℚ × ℕ) × ℕ)) :
    ∀ o ∈ primary_raw0 pw mu d,
      (o.kind = PKind.solid → o.rest = 0) ∧ (o.rest = 0 ∨ mu ≤ o.rest) := by
  intro o ho
  rw [primary_raw0, List.mem_flatMap] at ho
  obtain ⟨e, he, hmem⟩ := ho
  by_cases h1 : e.1.2 = pw
  · rw [if_pos h1, List.mem_singleton] at hmem
    subst hmem
    exact ⟨fun _ => rfl, Or.inl rfl⟩
  · rw [if_neg h1] at hmem
    by_cases h2 : e.1.2 < pw
    · rw [if_pos h2, List.mem_append] at hmem
      rcases hmem with hmem | hmem
      · by_cases h3 : mu ≤ pw - e.1.2
        · rw [if_pos h3, List.mem_singleton] at hmem
          subst hmem
          exact ⟨by simp, Or.inr h3⟩
        · rw [if_neg h3] at hmem
          cases hmem
      · rw [List.mem_filterMap] at hmem
        obtain ⟨t, ht, hsome⟩ := hmem
        by_cases h4 : t.1 ≠ e.1.2 ∧ mu ≤ t.2.1
        · rw [if_pos h4] at hsome
          cases hsome
          exact ⟨by simp, Or.inr h4.2⟩
        · rw [if_neg h4] at hsome
          cases hsome
    · rw [if_neg h2] at hmem
      cases hmem

/-- The structural facts carry over to the surviving primary options. -/
theorem filtered_primary_inv (pw mu : ℕ) (d : List ((ℚ × ℕ) × ℕ)) :
    ∀ o ∈ filtered_primary pw mu d,
      (o.kind = PKind.solid → o.rest = 0) ∧ (o.rest = 0 ∨ mu ≤ o.rest) := by
  intro o ho
  have ho2 : o ∈ primary_raw pw mu d := List.mem_of_mem_filter ho
  obtain ⟨o0, h0, he⟩ := withIdsP_mem 0 _ o ho2
  have h := primary_raw0_inv pw mu d o0 h0
  rw [he]
  simpa using h

/-- The surviving primary options keep their strictly increasing ids. -/
theorem filtered_primary_pairwise (pw mu : ℕ) (d : List ((ℚ × ℕ) × ℕ)) :
    (filtered_primary pw mu d).Pairwise fun a b => a.id < b.id :=
  List.Pairwise.sublist (List.filter_sublist _) (withIdsP_pairwise 0 _)

/-- Exact-key consumption of a remnant is bounded by the tolerance-matched
consumption the balance constraint sums. -/
theorem exact_le_tol (S : List SOpt) (sol : Sol) (k : ℚ × ℕ) :
    exactConsumedSum S sol k ≤ ((consumedList S k).map fun s => sol.xs s.id).sum := by
  simp only [exactConsumedSum, consumedList]
  rw [← sum_map_ite_eq_filter S
    (fun s => |s.source_length - k.1| ≤ tolerance_length ∧ s.source_rest = k.2)
    (fun s => sol.xs s.id)]
  refine sum_map_ite_le S _ _ _ ?_
  rintro s hs ⟨h1, h2⟩
  refine ⟨?_, h2⟩
  rw [h1, sub_self, abs_zero]
  norm_num [tolerance_length]

/-- The claim-level non-solid production sum, written over the filtered
option sublists. -/
theorem nonSolidProducedSum_eq (P : List POpt) (sol : Sol) (k : ℚ × ℕ) :
    nonSolidProducedSum P sol k =
      (((P.filter fun o => decide (okey o = k)).filter
          fun o => decide (o.kind ≠ PKind.solid)).map fun o => sol.xp o.id).sum := by
  induction P with
  | nil => rfl
  | cons a t ih =>
    simp only [nonSolidProducedSum, List.map_cons, List.sum_cons, List.filter_cons] at ih ⊢
    by_cases h1 : okey a = k
    · by_cases h2 : a.kind = PKind.solid
      · simp [h1, h2, ih]
      · simp [h1, h2, ih]
    · simp [h1, ih]

/-! Claim theorems. -/

/-- C10: For inputs whose piece lengths are all within the track capacity,
every track returned by `first_fit_decreasing` uses at most the capacity and
its leftover is the nonnegative difference `capacity - total_m`; the number of
piece entries across all tracks always equals the total input quantity; and a
nonnegatively-sized piece longer than the capacity is still placed, in a track
whose leftover is negative. -/
theorem ffd_track_invariants (ps : List TPiece) (cap : ℚ) :
    ((∀ p ∈ ps, p.length_m ≤ cap) →
      ∀ t ∈ first_fit_decreasing ps cap,
        t.total_m ≤ cap ∧ t.leftover_m = cap - t.total_m ∧ 0 ≤ t.leftover_m) ∧
    (((first_fit_decreasing ps cap).map fun t => t.pieces.length).sum =
      (ps.map (·.qty)).sum) ∧
    ((∀ p ∈ ps, 0 ≤ p.length_m) →
      ∀ p ∈ ps, cap < p.length_m → 0 < p.qty →
        ∃ t ∈ first_fit_decreasing ps cap, p.length_m ∈ t.pieces ∧ t.leftover_m < 0) := by
  simp only [first_fit_decreasing]
  refine ⟨?_, ?_, ?_⟩
  · intro h t ht
    rw [List.mem_map] at ht
    obtain ⟨t0, ht0, rfl⟩ := ht
    have hle : t0.total_m ≤ cap := by
      refine packFold_total_le cap _ [] (by simp) ?_ t0 ht0
      intro x hx
      obtain ⟨p, hps, -, rfl⟩ := (mem_expanded _ x).mp hx
      exact h p ((mem_sortDesc ps p).mp hps)
    refine ⟨hle, rfl, ?_⟩
    simpa using sub_nonneg.mpr hle
  · rw [List.map_map]
    have hcomp :
        ((fun t => t.pieces.length) ∘ fun t : Track => { t with leftover_m := cap - t.total_m }) =
          fun t : Track => t.pieces.length := rfl
    rw [hcomp, packFold_count]
    simp only [List.length_nil, List.map_nil, List.sum_nil, Nat.zero_add, length_expanded]
    exact ((List.perm_insertionSort (fun a b : TPiece => b.length_m ≤ a.length_m) ps).map (·.qty)).sum_eq
  · intro hnn p hp hcap hqty
    have hxmem : p.length_m ∈
        ((List.insertionSort (fun a b : TPiece => b.length_m ≤ a.length_m) ps).flatMap
          fun q => List.replicate q.qty q.length_m) := by
      exact (mem_expanded _ _).mpr ⟨p, (mem_sortDesc ps p).mpr hp, Nat.pos_iff_ne_zero.mp hqty, rfl⟩
    obtain ⟨t0, ht0, hx0⟩ := packFold_mem cap _ [] p.length_m hxmem
    have hinv := packFold_inv cap _ [] (by simp) ?_ t0 ht0
    · have htot : p.length_m ≤ t0.total_m := by
        rw [hinv.1]
        exact List.single_le_sum hinv.2 _ hx0
      refine ⟨{ t0 with leftover_m := cap - t0.total_m }, ?_, ?_, ?_⟩
      · exact List.mem_map.mpr ⟨t0, ht0, rfl⟩
      · simpa using hx0
      · show cap - t0.total_m < 0
        have : cap < t0.total_m := lt_of_lt_of_le hcap htot
        simpa using sub_neg.mpr this
    · intro x hx
      obtain ⟨q, hqs, -, rfl⟩ := (mem_expanded _ x).mp hx
      exact hnn q ((mem_sortDesc ps q).mp hqs)

unseal Rat.sub Rat.add Rat.mul Rat.inv Rat.ofScientific in
/-- C10 witness: the theorem applied at concrete inputs, discharging every
hypothesis.  With a single piece of length 2 and capacity 10 the capacity
conjunct yields a track within capacity; with a single piece of length 12 and
capacity 10 the overflow conjunct yields a negative-leftover track. -/
theorem ffd_track_invariants_witness :
    (Track.total_m ⟨[2], 2, 8⟩ ≤ 10 ∧ Track.leftover_m ⟨[2], 2, 8⟩ = 10 - Track.total_m ⟨[2], 2, 8⟩) ∧
    (∃ t ∈ first_fit_decreasing [⟨12, 1⟩] 10, (12 : ℚ) ∈ t.pieces ∧ t.leftover_m < 0) := by
  constructor
  · have h := (ffd_track_invariants [⟨2, 1⟩] 10).1 (by decide) ⟨[2], 2, 8⟩ (by decide)
    exact ⟨h.1, h.2.1⟩
  · exact (ffd_track_invariants [⟨12, 1⟩] 10).2.2 (by decide) ⟨12, 1⟩ (by decide)
      (by decide) (by decide)

unseal Rat.sub Rat.add Rat.mul Rat.inv Rat.ofScientific in
/-- C3 counterexample: on piece lengths `[9.88, 9.88, 5.0, 5.0]` with capacity
9.88 the packer returns 4 tracks, not the 3 tracks the claim states. -/
theorem ffd_example_c_counterexample :
    (first_fit_decreasing [⟨9.88, 1⟩, ⟨9.88, 1⟩, ⟨5, 1⟩, ⟨5, 1⟩] 9.88).length = 4 := by
  decide

unseal Rat.sub Rat.add Rat.mul Rat.inv Rat.ofScientific in
/-- C3 (amended): on piece lengths `[9.88, 9.88, 5.0, 5.0]` with capacity 9.88
the packer returns exactly 4 tracks, each holding a single piece — the two 5.0
pieces do not share a track because the capacity check
`usedLength + pieceLength ≤ capacity` is strict and `5.0 + 5.0 = 10.0 > 9.88`. -/
theorem ffd_example_c_four_tracks :
    first_fit_decreasing [⟨9.88, 1⟩, ⟨9.88, 1⟩, ⟨5, 1⟩, ⟨5, 1⟩] 9.88 =
      [⟨[9.88], 9.88, 0⟩, ⟨[9.88], 9.88, 0⟩, ⟨[5], 5, 4.88⟩, ⟨[5], 5, 4.88⟩] ∧
    ¬((5 : ℚ) + 5 ≤ 9.88) := by
  decide

unseal Rat.sub Rat.add Rat.mul Rat.inv Rat.ofScientific in
/-- C7 counterexample: two order lines whose lengths differ by 0.005 m (within
the ±0.01 m tolerance) and whose widths are equal are NOT merged by the demand
aggregator; it returns two distinct keys with quantity 1 each instead of one
key with quantity 2. -/
theorem demand_aggregator_no_tolerance_counterexample :
    demand_2d [⟨5.6, 320, 1⟩, ⟨5.605, 320, 1⟩] = [((5.6, 320), 1), ((5.605, 320), 1)] ∧
    |(5.605 : ℚ) - 5.6| ≤ tolerance_length ∧
    ¬∃ k, demand_2d [⟨5.6, 320, 1⟩, ⟨5.605, 320, 1⟩] = [(k, 2)] := by
  refine ⟨by decide, by decide, ?_⟩
  rintro ⟨k, hk⟩
  have : ([((5.6, 320), 1), ((5.605, 320), 1)] : List ((ℚ × ℕ) × ℕ)) = [(k, 2)] := by
    rw [← hk]; decide
  simp at this

/-- C7 (amended): the demand aggregator is a pure map from order lines to a
`(length, width) → qty` map that merges only entries with exactly equal keys,
summing their quantities; the configured tolerances are applied later, when
options are matched against demand, not during aggregation.  The key list of
the result is duplicate-free and the quantity stored under any key equals the
total quantity of the order lines carrying exactly that key. -/
theorem demand_aggregation_exact_key (orders : List Order2D) (k : ℚ × ℕ) :
    keyQty (demand_2d orders) k =
      (orders.map fun o => if (o.length, o.width) = k then o.qty else 0).sum ∧
    ((demand_2d orders).map (·.1)).Nodup := by
  constructor
  · have h := demand_foldl_keyQty orders [] k
    simpa [keyQty] using h
  · exact demand_foldl_nodup orders [] (by simp)


/-- C2: In any plan the solver can return (any assignment satisfying the built
constraints), for every distinct remnant key `(sourceLength, restWidth)` of
`possible_rests` with positive rest width, the total selected quantity of
secondary options consuming exactly that remnant is at most the total selected
quantity of non-solid primary options producing exactly that remnant. -/
theorem remnant_balance (pw mu : ℕ) (orders : List Order2D) (sol : Sol)
    (hf : Feasible (buildModel pw mu orders) sol)
    (r : (ℚ × ℕ) × List ℕ) (hr : r ∈ (buildModel pw mu orders).rests) (hw : 0 < r.1.2) :
    exactConsumedSum (buildModel pw mu orders).sec sol r.1 ≤
      nonSolidProducedSum (buildModel pw mu orders).prim sol r.1 := by
  have hr0 := hr
  have hR : (buildModel pw mu orders).rests =
      possible_rests (filtered_primary pw mu (demand_2d orders)) := rfl
  have hP : (buildModel pw mu orders).prim = filtered_primary pw mu (demand_2d orders) := rfl
  have hS : (buildModel pw mu orders).sec = filtered_secondary pw mu (demand_2d orders) := rfl
  rw [hR] at hr
  rw [hP, hS]
  obtain ⟨spec1, spec2, spec3⟩ := possible_rests_spec (filtered_primary pw mu (demand_2d orders))
  have hexact := exact_le_tol (filtered_secondary pw mu (demand_2d orders)) sol r.1
  by_cases hc : consumedList (filtered_secondary pw mu (demand_2d orders)) r.1 = []
  · rw [hc] at hexact
    simp only [List.map_nil, List.sum_nil] at hexact
    exact le_trans hexact (Nat.zero_le _)
  · obtain ⟨o, hoP, hok⟩ := (spec2 r.1).mp (List.mem_map_of_mem _ hr)
    have hrest : o.rest = r.1.2 := congrArg Prod.snd hok
    have hns : o.kind ≠ PKind.solid := by
      intro hk
      have h0 := (filtered_primary_inv pw mu _ o hoP).1 hk
      omega
    have hids := spec3 r hr
    have hbridge := producedList_eq (filtered_primary pw mu (demand_2d orders))
      (filtered_primary_pairwise pw mu _)
      ((filtered_primary pw mu (demand_2d orders)).filter fun p => decide (okey p = r.1))
      (fun p hp => List.mem_of_mem_filter hp)
    have hprodeq : producedList (filtered_primary pw mu (demand_2d orders)) r.2 =
        (((filtered_primary pw mu (demand_2d orders)).filter fun p => decide (okey p = r.1)).filter
          fun p => decide (p.kind ≠ PKind.solid)).map (·.id) := by
      rw [hids]
      exact hbridge
    have hmemo : o ∈ ((filtered_primary pw mu (demand_2d orders)).filter
        fun p => decide (okey p = r.1)).filter fun p => decide (p.kind ≠ PKind.solid) := by
      rw [List.mem_filter, List.mem_filter]
      exact ⟨⟨hoP, by simp [hok]⟩, by simp [hns]⟩
    have hne : producedList (filtered_primary pw mu (demand_2d orders)) r.2 ≠ [] := by
      rw [hprodeq]
      exact List.ne_nil_of_mem (List.mem_map_of_mem _ hmemo)
    have hbal := hf.2.2 r hr0 (by omega) hne hc
    rw [hP, hS] at hbal
    refine le_trans hexact (le_trans hbal ?_)
    rw [hprodeq, List.map_map, nonSolidProducedSum_eq]
    rfl

unseal Rat.sub Rat.add Rat.mul Rat.inv Rat.ofScientific in
/-- C2 witness: on the order list `[{length 5, width 320, qty 1}]` the
assignment selecting one direct cut and no secondary cuts is feasible, and the
balance bound holds for the produced remnant key `(5, 880)`. -/
theorem remnant_balance_witness :
    exactConsumedSum (buildModel 1200 200 [⟨5, 320, 1⟩]).sec solOne (5, 880) ≤
      nonSolidProducedSum (buildModel 1200 200 [⟨5, 320, 1⟩]).prim solOne (5, 880) :=
  remnant_balance 1200 200 [⟨5, 320, 1⟩] solOne (by decide) ((5, 880), [0]) (by decide)
    (by decide)



/-- C9: For every remnant key `(sourceLength, restWidth)` of `possible_rests`
(produced by surviving primary options) and every demand key
`(targetLength, targetWidth)` with `targetWidth < restWidth ≤ targetWidth +
100` and lengths matching within tolerance, the secondary option generator
emits a single-piece narrowing option for that pair whose width waste is the
width difference. -/
theorem narrowing_option_emitted (pw mu : ℕ) (orders : List Order2D)
    (r : (ℚ × ℕ) × List ℕ) (hr : r ∈ (buildModel pw mu orders).rests)
    (e : (ℚ × ℕ) × ℕ) (he : e ∈ (buildModel pw mu orders).demand)
    (h1 : e.1.2 < r.1.2) (h2 : r.1.2 ≤ e.1.2 + 100)
    (h3 : |e.1.1 - r.1.1| ≤ tolerance_length) :
    ∃ o ∈ secondary_raw pw mu (demand_2d orders),
      o.source_length = r.1.1 ∧ o.source_rest = r.1.2 ∧
      o.output_length = e.1.1 ∧ o.output_width = e.1.2 ∧
      o.pieces = 1 ∧ o.kind = SKind.narrowing ∧ o.waste = r.1.2 - e.1.2 := by
  have hr' : r ∈ possible_rests (filtered_primary pw mu (demand_2d orders)) := hr
  have he' : e ∈ demand_2d orders := he
  obtain ⟨spec1, spec2, spec3⟩ := possible_rests_spec (filtered_primary pw mu (demand_2d orders))
  obtain ⟨p, hpP, hpk⟩ := (spec2 r.1).mp (List.mem_map_of_mem _ hr')
  have hrest : p.rest = r.1.2 := congrArg Prod.snd hpk
  have hge : mu ≤ r.1.2 := by
    rcases (filtered_primary_inv pw mu _ p hpP).2 with h0 | h0
    · omega
    · omega
  have hcond : |e.1.1 - r.1.1| ≤ tolerance_length ∧ e.1.2 < r.1.2 ∧
      r.1.2 ≤ e.1.2 + 100 ∧ r.1.2 - e.1.2 ≤ 100 := ⟨h3, h1, h2, by omega⟩
  have hmem0 : (⟨0, r.1.1, r.1.2, e.1.1, e.1.2, 1, r.1.2 - e.1.2, 0, SKind.narrowing, r.2⟩ : SOpt) ∈
      sec_options_for r.1.1 r.1.2 r.2 e.1.1 e.1.2 := by
    unfold sec_options_for
    refine List.mem_append_left _ (List.mem_append_right _ ?_)
    rw [if_pos hcond]
    simp
  have hmemraw : (⟨0, r.1.1, r.1.2, e.1.1, e.1.2, 1, r.1.2 - e.1.2, 0, SKind.narrowing, r.2⟩ : SOpt) ∈
      secondary_raw0 mu (demand_2d orders)
        (possible_rests (filtered_primary pw mu (demand_2d orders))) := by
    rw [secondary_raw0, List.mem_flatMap]
    refine ⟨r, hr', ?_⟩
    rw [if_neg (by omega : ¬r.1.2 < mu), List.mem_flatMap]
    exact ⟨e, he', hmem0⟩
  obtain ⟨o, ho, heq⟩ := withIdsS_mem_of 0 _ _ hmemraw
  refine ⟨o, ho, ?_, ?_, ?_, ?_, ?_, ?_, ?_⟩ <;> rw [heq]

unseal Rat.sub Rat.add Rat.mul Rat.inv Rat.ofScientific in
/-- C9 witness: with demand for widths 320 and 800 at length 5, the remnant
key `(5, 880)` of the 320-cut and the demand key `(5, 800)` satisfy the
narrowing window, and the generator emits the single-piece narrowing option
with waste 80. -/
theorem narrowing_option_emitted_witness :
    ∃ o ∈ secondary_raw 1200 200 (demand_2d [⟨5, 320, 1⟩, ⟨5, 800, 1⟩]),
      o.source_length = 5 ∧ o.source_rest = 880 ∧ o.output_length = 5 ∧
      o.output_width = 800 ∧ o.pieces = 1 ∧ o.kind = SKind.narrowing ∧ o.waste = 80 := by
  have h := narrowing_option_emitted 1200 200 [⟨5, 320, 1⟩, ⟨5, 800, 1⟩]
    ((5, 880), [0]) (by decide) ((5, 800), 1) (by decide) (by decide) (by decide) (by decide)
  simpa using h



unseal Rat.sub Rat.add Rat.mul Rat.inv Rat.ofScientific in
/-- C1 counterexample: for the single demand line `(5, 1100, qty 1)` no
primary or secondary option exists at all (the direct rest 100 is below the
minimum useful width 200, 1100 is neither the stock width nor a narrowing
target), so the model gets no demand constraint for the key: the all-zero
assignment — the solution of the resulting empty model — is feasible while
covering the demand key `(5, 1100)` with 0 < 1 matching pieces. -/
theorem coverage_claim_counterexample :
    (buildModel 1200 200 [⟨5, 1100, 1⟩]).prim = [] ∧
    (buildModel 1200 200 [⟨5, 1100, 1⟩]).sec = [] ∧
    Feasible (buildModel 1200 200 [⟨5, 1100, 1⟩]) solZero ∧
    ((5, 1100), 1) ∈ (buildModel 1200 200 [⟨5, 1100, 1⟩]).demand ∧
    coverage (buildModel 1200 200 [⟨5, 1100, 1⟩]).prim
      (buildModel 1200 200 [⟨5, 1100, 1⟩]).sec solZero 5 1100 = 0 := by
  decide

/-- C1 (amended): in any plan the solver can return (any assignment satisfying
the built constraints), every demand key that at least one surviving option
matches — as a direct/solid primary source, an indirect primary source, or a
secondary source, within the length and width tolerances — is covered by at
least its requested quantity; demand keys matched by no option get no
constraint and may be left uncovered. -/
theorem coverage_of_matched_demand (pw mu : ℕ) (orders : List Order2D) (sol : Sol)
    (hf : Feasible (buildModel pw mu orders) sol)
    (e : (ℚ × ℕ) × ℕ) (he : e ∈ (buildModel pw mu orders).demand)
    (hsrc : (∃ o ∈ (buildModel pw mu orders).prim, primMatch e.1.1 e.1.2 o) ∨
      (∃ s ∈ (buildModel pw mu orders).sec, secMatch e.1.1 e.1.2 s)) :
    e.2 ≤ coverage (buildModel pw mu orders).prim (buildModel pw mu orders).sec
      sol e.1.1 e.1.2 :=
  hf.1 e he hsrc

unseal Rat.sub Rat.add Rat.mul Rat.inv Rat.ofScientific in
/-- C1 witness: for demand `(5, 320, qty 1)` the assignment taking one direct
cut is feasible and covers the matched key. -/
theorem coverage_of_matched_demand_witness :
    (1 : ℕ) ≤ coverage (buildModel 1200 200 [⟨5, 320, 1⟩]).prim
      (buildModel 1200 200 [⟨5, 320, 1⟩]).sec solOne 5 320 :=
  coverage_of_matched_demand 1200 200 [⟨5, 320, 1⟩] solOne (by decide) ((5, 320), 1)
    (by decide) (by decide)

unseal Rat.sub Rat.add Rat.mul Rat.inv Rat.ofScientific in
/-- C4 counterexample: with configured stock width 240 mm, the demand
`(5, 240)` has a solid option, yet the model contains no solid-priority
constraint for it because the code tests the literal width 1200 rather than
the configured stock width: the assignment covering that demand entirely by a
transverse secondary cut of the remnant of the `(6, 20)` demand — zero solid
plates — is feasible. -/
theorem solid_priority_counterexample :
    (∃ o ∈ (buildModel 240 200 [⟨5, 240, 1⟩, ⟨6, 20, 1⟩]).prim, solidMatch 5 240 o) ∧
    ((5, 240), 1) ∈ (buildModel 240 200 [⟨5, 240, 1⟩, ⟨6, 20, 1⟩]).demand ∧
    Feasible (buildModel 240 200 [⟨5, 240, 1⟩, ⟨6, 20, 1⟩]) solC4 ∧
    solidSum (buildModel 240 200 [⟨5, 240, 1⟩, ⟨6, 20, 1⟩]).prim solC4 5 240 = 0 := by
  decide

/-- C4 (amended): the solid-priority constraint is keyed on the literal width
1200 mm (which coincides with the default stock width), not on the configured
stock width parameter: in any feasible assignment, every demand key of width
exactly 1200 for which a matching solid option exists is met by at least its
quantity of solid plates. -/
theorem solid_priority_literal_1200 (pw mu : ℕ) (orders : List Order2D) (sol : Sol)
    (hf : Feasible (buildModel pw mu orders) sol)
    (e : (ℚ × ℕ) × ℕ) (he : e ∈ (buildModel pw mu orders).demand) (hw : e.1.2 = 1200)
    (hs : ∃ o ∈ (buildModel pw mu orders).prim, solidMatch e.1.1 e.1.2 o) :
    e.2 ≤ solidSum (buildModel pw mu orders).prim sol e.1.1 e.1.2 :=
  hf.2.1 e he hw hs

unseal Rat.sub Rat.add Rat.mul Rat.inv Rat.ofScientific in
/-- C4 witness: at the default stock width 1200 with demand `(5, 1200, qty 1)`
the all-ones assignment is feasible and the solid-priority bound holds. -/
theorem solid_priority_literal_1200_witness :
    (1 : ℕ) ≤ solidSum (buildModel 1200 200 [⟨5, 1200, 1⟩]).prim solOne 5 1200 :=
  solid_priority_literal_1200 1200 200 [⟨5, 1200, 1⟩] solOne (by decide) ((5, 1200), 1)
    (by decide) rfl (by decide)

unseal Rat.sub Rat.add Rat.mul Rat.inv Rat.ofScientific in
/-- C6 counterexample: for the single solid option generated by demand
`(5, 1200)` at stock width 1200 and an empty price oracle, the primary-cut
objective term at quantity one is 5000 — plate price 10000 plus zero cut cost
minus the flat 5000 solid bonus — while the formula the claim states (price
plus cut cost, nothing else) gives 10000. -/
theorem primary_cost_solid_bonus_counterexample :
    primaryCostTerm gpNone (buildModel 1200 200 [⟨5, 1200, 1⟩]).prim solOne = 5000 ∧
    specPrimaryCostTerm gpNone (buildModel 1200 200 [⟨5, 1200, 1⟩]).prim solOne = 10000 ∧
    primaryCostTerm gpNone (buildModel 1200 200 [⟨5, 1200, 1⟩]).prim solOne ≠
      specPrimaryCostTerm gpNone (buildModel 1200 200 [⟨5, 1200, 1⟩]).prim solOne := by
  decide

/-- C6 (amended): the primary-cut term of the objective equals the claimed
formula — quantity times (oracle price plus longitudinal cut cost when not
solid) — minus a flat 5000 discount per selected solid plate. -/
theorem primary_cost_term_decompose (gp : ℚ → ℕ → Option ℚ) (P : List POpt) (sol : Sol) :
    primaryCostTerm gp P sol =
      specPrimaryCostTerm gp P sol -
        5000 * (P.map fun o => if o.kind = PKind.solid then (sol.xp o.id : ℚ) else 0).sum := by
  induction P with
  | nil => simp [primaryCostTerm, specPrimaryCostTerm]
  | cons a t ih =>
    simp only [primaryCostTerm, specPrimaryCostTerm, List.map_cons, List.sum_cons] at ih ⊢
    by_cases h : a.kind = PKind.solid <;> simp [h, ih] <;> ring

unseal Rat.sub Rat.add Rat.mul Rat.inv Rat.ofScientific in
/-- C5: code evaluated at the failing input.  For the single demand
`(5, 1000, qty 1)` the direct cut produces remnant key `(5, 200)` and no
consuming secondary option exists, so the `if produced and consumed` guard of
objective step 7.3 skips the key: the unused-remnant penalty term is
identically zero and the reported objective reduces to the primary cost term
alone, although every feasible assignment produces at least one such remnant
(the claim and spec Example D require the full quantity to be penalised at
half the notional remnant price). -/
theorem unused_penalty_dropped_without_consumers (gp : ℚ → ℕ → Option ℚ) (sol : Sol)
    (hf : Feasible (buildModel 1200 200 [⟨5, 1000, 1⟩]) sol) :
    (buildModel 1200 200 [⟨5, 1000, 1⟩]).rests = [((5, 200), [0])] ∧
    (buildModel 1200 200 [⟨5, 1000, 1⟩]).sec = [] ∧
    1 ≤ sol.xp 0 ∧
    unusedPenaltyTerm gp (buildModel 1200 200 [⟨5, 1000, 1⟩]).sec
      (buildModel 1200 200 [⟨5, 1000, 1⟩]).rests sol = 0 ∧
    totalObjective gp (buildModel 1200 200 [⟨5, 1000, 1⟩]) sol =
      primaryCostTerm gp (buildModel 1200 200 [⟨5, 1000, 1⟩]).prim sol := by
  have hrests : (buildModel 1200 200 [⟨5, 1000, 1⟩]).rests = [((5, 200), [0])] := by decide
  have hsec : (buildModel 1200 200 [⟨5, 1000, 1⟩]).sec = [] := by decide
  have hprim : (buildModel 1200 200 [⟨5, 1000, 1⟩]).prim =
      [{ id := 0, length := 5, main := 1000, rest := 200, kind := PKind.direct,
         target_width := 0, narrowing_waste := 0 }] := by decide
  have hpm : primMatch 5 1000
      ({ id := 0, length := 5, main := 1000, rest := 200, kind := PKind.direct,
         target_width := 0, narrowing_waste := 0 } : POpt) := by decide
  have hxp : 1 ≤ sol.xp 0 := by
    have h := hf.1 ((5, 1000), 1) (by decide) (by decide)
    rw [hprim, hsec] at h
    simpa [coverage, hpm] using h
  have hpen : unusedPenaltyTerm gp (buildModel 1200 200 [⟨5, 1000, 1⟩]).sec
      (buildModel 1200 200 [⟨5, 1000, 1⟩]).rests sol = 0 := by
    rw [hrests, hsec]
    simp [unusedPenaltyTerm, consumedList]
  refine ⟨hrests, hsec, hxp, hpen, ?_⟩
  rw [totalObjective, hpen, hsec]
  simp [secondaryCostTerm, wastePenaltyTerm, reuseBonusTerm]

unseal Rat.sub Rat.add Rat.mul Rat.inv Rat.ofScientific in
/-- C5 witness: the theorem applied to the empty price oracle and the
assignment taking the single direct cut once, which is feasible. -/
theorem unused_penalty_dropped_witness :
    1 ≤ solOne.xp 0 ∧
    unusedPenaltyTerm gpNone (buildModel 1200 200 [⟨5, 1000, 1⟩]).sec
      (buildModel 1200 200 [⟨5, 1000, 1⟩]).rests solOne = 0 := by
  have h := unused_penalty_dropped_without_consumers gpNone solOne (by decide)
  exact ⟨h.2.2.1, h.2.2.2.1⟩

/-- C8 counterexample: with PuLP unavailable — and likewise with a non-optimal
solver status — the optimizer returns the bare empty dict, the very value it
returns for an empty order list; it carries no `CapabilityUnavailable` or
`NoFeasiblePlan` marker and no list of unmatched demand keys. -/
theorem failure_returns_empty_dict_counterexample :
    optimize_2d_with_lengths false [⟨5, 320, 1⟩] 1200 200 SolveStatus.optimal solZero =
      PyReturn.emptyDict ∧
    optimize_2d_with_lengths true [⟨5, 320, 1⟩] 1200 200 SolveStatus.infeasible solZero =
      PyReturn.emptyDict ∧
    optimize_2d_with_lengths true [] 1200 200 SolveStatus.optimal solZero =
      PyReturn.emptyDict := by
  refine ⟨rfl, ?_, rfl⟩
  simp [optimize_2d_with_lengths]

/-- C8 (amended): both failure paths return the plain empty dict: when PuLP
cannot be imported the function returns `{}` whatever the other inputs are,
and when the solver status is not Optimal it also returns `{}`; no structured
failure value and no unmet-demand-key list is produced. -/
theorem failure_semantics_empty_dict (orders : List Order2D) (pw mu : ℕ)
    (st : SolveStatus) (sol : Sol) :
    optimize_2d_with_lengths false orders pw mu st sol = PyReturn.emptyDict ∧
    (st ≠ SolveStatus.optimal →
      optimize_2d_with_lengths true orders pw mu st sol = PyReturn.emptyDict) := by
  constructor
  · simp [optimize_2d_with_lengths]
  · intro h
    by_cases ho : orders.isEmpty <;> simp [optimize_2d_with_lengths, ho, h]

/-- C8 witness: the theorem applied at a concrete non-optimal status. -/
theorem failure_semantics_empty_dict_witness :
    optimize_2d_with_lengths true [⟨5, 320, 1⟩] 1200 200 SolveStatus.infeasible solZero =
      PyReturn.emptyDict :=
  (failure_semantics_empty_dict [⟨5, 320, 1⟩] 1200 200 SolveStatus.infeasible solZero).2
    (by decide)


end PlanOpt
